import Mathlib

/-!
Verification development for the fprof trace-analysis scripts
(`src/instruments/prof2.py` and `src/instruments/prof.py`).

The Python code is shallowly embedded: Python `int` values become `Int`
(timestamps, durations) or `Nat` (addresses, counts, byte values), Python
dicts keyed by function address become insertion-ordered association lists
(`AggMap`), the per-thread call stack becomes a `List StackFrame` whose head
is the top of the stack, and fallible operations return `Except String`.
Top-level definitions embed `prof2.py`; the `Prof` namespace embeds the
corresponding functions of `prof.py`.
-/

/-- Aggregate for one function address, `Agg = namedtuple("Agg", "calls incl_ns
excl_ns max_incl_ns")` (prof2.py line 51). -/
structure Agg where
  calls : Nat
  incl_ns : Int
  excl_ns : Int
  max_incl_ns : Int
deriving DecidableEq

/-- The `agg_add` function of prof2.py (lines 53-56): `None` means "no prior
aggregate". -/
def agg_add (a : Option Agg) (calls : Nat) (incl excl mx : Int) : Agg :=
  match a with
  | none => ⟨calls, incl, excl, mx⟩
  | some a => ⟨a.calls + calls, a.incl_ns + incl, a.excl_ns + excl, max a.max_incl_ns mx⟩

/-- A Python dict keyed by function address, modelled as an association list in
insertion order (Python dicts iterate in insertion order). -/
abbrev AggMap := List (Nat × Agg)

/-- `aggs.get(addr)`: lookup returning `None` when absent. -/
def aggGet (A : AggMap) (k : Nat) : Option Agg :=
  match A with
  | [] => none
  | (k', v) :: rest => if k' = k then some v else aggGet rest k

/-- `aggs[addr] = v`: replace in place when the key exists (keeping its
position, as a Python dict does), append otherwise. -/
def aggSet (A : AggMap) (k : Nat) (v : Agg) : AggMap :=
  match A with
  | [] => [(k, v)]
  | (k', v') :: rest => if k' = k then (k, v) :: rest else (k', v') :: aggSet rest k v

/-- One binary trace record: `struct.unpack("<QQB7x", ...)` yields
`(ts_ns, fn, typ)`; `typ == 0` is an Enter event, anything else an Exit. -/
structure TraceRecord where
  ts : Int
  fn : Nat
  typ : Nat
deriving DecidableEq

/-- One open call frame on the reconstruction stack: the Python code keeps
`[fn_addr, start_ns, child_ns]` (prof2.py line 161). -/
structure StackFrame where
  fn : Nat
  start : Int
  child : Int
deriving DecidableEq

/-- The Python call stack is a list with `append`/`pop` at its end; we model
it with the head of the Lean list as the top of the stack. -/
abbrev Stack := List StackFrame

/-- `if stack: stack[-1][2] += incl` — add a closed frame's inclusive time to
the accumulated child time of the frame below, when one exists. -/
def addChild (d : Int) (s : Stack) : Stack :=
  match s with
  | [] => []
  | ⟨f, st, c⟩ :: rest => ⟨f, st, c + d⟩ :: rest

/-- The Exit-event drain loop of `analyze_thread_file` (prof2.py lines
172-180): pop frames until a popped frame's address equals the exit event's
address or the stack is exhausted, closing each popped frame. -/
def drain (fn : Nat) (ts : Int) (stack : Stack) (aggs : AggMap) : Stack × AggMap :=
  match stack with
  | [] => ([], aggs)
  | top :: rest =>
    if top.fn = fn then
      (addChild (if top.start ≤ ts then ts - top.start else 0) rest,
       aggSet aggs top.fn (agg_add (aggGet aggs top.fn) 1
         (if top.start ≤ ts then ts - top.start else 0)
         (if top.child ≤ (if top.start ≤ ts then ts - top.start else 0)
            then (if top.start ≤ ts then ts - top.start else 0) - top.child else 0)
         (if top.start ≤ ts then ts - top.start else 0)))
    else
      drain fn ts
        (addChild (if top.start ≤ ts then ts - top.start else 0) rest)
        (aggSet aggs top.fn (agg_add (aggGet aggs top.fn) 1
          (if top.start ≤ ts then ts - top.start else 0)
          (if top.child ≤ (if top.start ≤ ts then ts - top.start else 0)
             then (if top.start ≤ ts then ts - top.start else 0) - top.child else 0)
          (if top.start ≤ ts then ts - top.start else 0)))
termination_by stack.length
decreasing_by
  have hlen : ∀ (d : Int) (s : Stack), (addChild d s).length = s.length := by
    intro d s
    cases s with
    | nil => rfl
    | cons f r => cases f; rfl
  simp [hlen]

/-- The state threaded through the record loop of `analyze_thread_file`:
open-frame stack, per-address aggregates, and `last_ts` (initially `None`). -/
structure TState where
  stack : Stack
  aggs : AggMap
  lastTs : Option Int
deriving DecidableEq

/-- Processing one record (prof2.py lines 164-180): record the timestamp,
push a fresh frame on Enter, run the drain loop on Exit. -/
def stepRecord (st : TState) (r : TraceRecord) : TState :=
  if r.typ = 0 then
    ⟨⟨r.fn, r.ts, 0⟩ :: st.stack, st.aggs, some r.ts⟩
  else
    ⟨(drain r.fn r.ts st.stack st.aggs).1, (drain r.fn r.ts st.stack st.aggs).2, some r.ts⟩

/-- The end-of-stream loop of `analyze_thread_file` (prof2.py lines 182-190):
force-close every frame still open, using `end_ts` as a synthetic exit time. -/
def forceClose (endTs : Int) (stack : Stack) (aggs : AggMap) : AggMap :=
  match stack with
  | [] => aggs
  | top :: rest =>
    forceClose endTs
      (addChild (if top.start ≤ endTs then endTs - top.start else 0) rest)
      (aggSet aggs top.fn (agg_add (aggGet aggs top.fn) 1
        (if top.start ≤ endTs then endTs - top.start else 0)
        (if top.child ≤ (if top.start ≤ endTs then endTs - top.start else 0)
           then (if top.start ≤ endTs then endTs - top.start else 0) - top.child else 0)
        (if top.start ≤ endTs then endTs - top.start else 0)))
termination_by stack.length
decreasing_by
  have hlen : ∀ (d : Int) (s : Stack), (addChild d s).length = s.length := by
    intro d s
    cases s with
    | nil => rfl
    | cons f r => cases f; rfl
  simp [hlen]

/-- Initial reconstruction state: empty stack, empty aggregates, `last_ts = None`. -/
def initState : TState := ⟨[], [], none⟩

/-- The record-level core of `analyze_thread_file` (prof2.py lines 159-192):
fold the record loop over the record sequence, then force-close any frames
still open at the last observed timestamp (`if last_ts is not None and stack`).
The Python code raises no exception on this path; the function is total. -/
def analyzeRecords (recs : List TraceRecord) : AggMap :=
  match recs.foldl stepRecord initState with
  | ⟨[], aggs, _⟩ => aggs
  | ⟨f :: fs, aggs, some ts⟩ => forceClose ts (f :: fs) aggs
  | ⟨_ :: _, aggs, none⟩ => aggs

/-- Timestamp of the first record of a sequence, when any. -/
def recsFirstTs (recs : List TraceRecord) : Option Int :=
  (recs.head?).map TraceRecord.ts

/-- Timestamp of the last record of a sequence, when any ("the last observed
timestamp"). -/
def recsLastTs (recs : List TraceRecord) : Option Int :=
  (recs.getLast?).map TraceRecord.ts

/-- Sum of the `calls` fields over all entries of an aggregate map. -/
def callsSum (A : AggMap) : Nat := (A.map (fun p => p.2.calls)).sum

/-- Sum of the `incl_ns` fields over all entries of an aggregate map. -/
def inclSumTotal (A : AggMap) : Int := (A.map (fun p => p.2.incl_ns)).sum

/-- Sum of the `excl_ns` fields over all entries of an aggregate map. -/
def exclSumTotal (A : AggMap) : Int := (A.map (fun p => p.2.excl_ns)).sum

/-- Total inclusive time recorded for one function address (0 when absent). -/
def inclAt (A : AggMap) (f : Nat) : Int :=
  match aggGet A f with
  | none => 0
  | some a => a.incl_ns

/-- Total exclusive time recorded for one function address (0 when absent). -/
def exclAt (A : AggMap) (f : Nat) : Int :=
  match aggGet A f with
  | none => 0
  | some a => a.excl_ns

/-- Number of calls recorded for one function address (0 when absent). -/
def callsAt (A : AggMap) (f : Nat) : Nat :=
  match aggGet A f with
  | none => 0
  | some a => a.calls

/-- Number of Enter records (`typ == 0`) in a record sequence. -/
def countEnters (recs : List TraceRecord) : Nat :=
  (recs.filter (fun r => r.typ = 0)).length

/-! Binary reader of prof2.py. A file's contents is a list of byte values.
`struct.calcsize("<8sIIQII") = 32` and `struct.calcsize("<QQB7x") = 24`. -/

/-- Header size in bytes, `HEADER_SZ = struct.calcsize("<8sIIQII")`. -/
def HEADER_SZ : Nat := 32

/-- Record size in bytes, `RECORD_SZ = struct.calcsize("<QQB7x")`. -/
def RECORD_SZ : Nat := 24

/-- Little-endian decoding of a byte list, as `struct.unpack` does for the
unsigned fields of the fixed little-endian layout. -/
def decodeLE (bytes : List Nat) : Nat :=
  match bytes with
  | [] => 0
  | b :: rest => b + 256 * decodeLE rest

/-- The byte slice `data[pos : pos + len]`. -/
def sliceBytes (data : List Nat) (pos len : Nat) : List Nat :=
  (data.drop pos).take len

/-- The 7 significant magic bytes, `b"FPROFv1"`. -/
def MAGIC : List Nat := [70, 80, 82, 79, 70, 118, 49]

/-- Decoded trace-file header, `magic(8) pid(u32) tid(u32) start_ns(u64)
rec_size(u32) flags(u32)`; `load_header` returns `(pid, tid, start_ns, flags)`. -/
structure TraceHeader where
  pid : Nat
  tid : Nat
  start_ns : Nat
  flags : Nat
deriving DecidableEq

/-- The `load_header` function of prof2.py (lines 138-147): error when fewer
than `HEADER_SZ` bytes are available, the 7 significant magic bytes differ
from `b"FPROFv1"`, or the declared record size is not `RECORD_SZ`. -/
def load_header (data : List Nat) : Except String TraceHeader :=
  if data.length < HEADER_SZ then .error "bad header length"
  else if sliceBytes data 0 7 ≠ MAGIC then .error "bad magic"
  else if decodeLE (sliceBytes data 24 4) ≠ RECORD_SZ then .error "record size mismatch"
  else .ok ⟨decodeLE (sliceBytes data 8 4), decodeLE (sliceBytes data 12 4),
            decodeLE (sliceBytes data 16 8), decodeLE (sliceBytes data 28 4)⟩

/-- `struct.unpack_from(RECORD_FMT, mm, pos)`: ts(u64) at `pos`, fn(u64) at
`pos+8`, type(u8) at `pos+16`, 7 padding bytes. -/
def parseRecord (data : List Nat) (pos : Nat) : TraceRecord :=
  ⟨(decodeLE (sliceBytes data pos 8) : Int),
   decodeLE (sliceBytes data (pos + 8) 8),
   decodeLE (sliceBytes data (pos + 16) 1)⟩

/-- The record loop bound of prof2.py (line 164): `while pos + RECORD_SZ <=
end`, reading one record per iteration; a trailing partial record is ignored. -/
def readRecordsFrom (data : List Nat) (pos : Nat) : List TraceRecord :=
  if pos + RECORD_SZ ≤ data.length then
    parseRecord data pos :: readRecordsFrom data (pos + RECORD_SZ)
  else []
termination_by data.length - pos
decreasing_by simp [RECORD_SZ] at *; omega

/-- All records of a trace file: the loop starts at `pos = HEADER_SZ`. -/
def readRecords (data : List Nat) : List TraceRecord :=
  readRecordsFrom data HEADER_SZ

/-- The `analyze_thread_file` function of prof2.py (lines 149-194): load and
validate the header, then reconstruct the per-function aggregates from the
record sequence. Returns `(pid, tid, aggs)`. -/
def analyze_thread_file (data : List Nat) : Except String (Nat × Nat × AggMap) :=
  match load_header data with
  | .error e => .error e
  | .ok h => .ok (h.pid, h.tid, analyzeRecords (readRecords data))

/-- Whether an `Except` result is an error. -/
def exceptIsError {ε α : Type} (x : Except ε α) : Bool :=
  match x with
  | .error _ => true
  | .ok _ => false

/-! Memory-map resolution of prof2.py: `parse_maps` keeps executable mappings
as tuples `(start, end, offset, path, base_vma)`; `find_module` binary-searches
them; `build_symbol_cache` converts a hit to a link-time address. -/

/-- One executable memory mapping as kept by `parse_maps` (prof2.py lines
60-87): `(start, end, offset, path, base_vma)`. -/
structure MemMapping where
  start : Nat
  stop : Nat
  off : Nat
  path : String
  base_vma : Int
deriving DecidableEq

/-- `parse_maps` builds each tuple with `base_vma = start - off` (prof2.py
lines 84-85); over Python ints this difference may be negative, hence `Int`. -/
def mkMapping (start stop off : Nat) (path : String) : MemMapping :=
  ⟨start, stop, off, path, (start : Int) - (off : Int)⟩

/-- The binary-search loop of `find_module` (prof2.py lines 89-101), with the
Python locals `lo`/`hi` as `Int` since `hi` starts at `len(mappings) - 1`.
Python's `//` floors, as does Lean's `Int` division for the divisor 2; from
`find_module` the index `mid` is always in range, so the `none` fallback of the
out-of-range lookup is unreachable. -/
def findFrom (mappings : List MemMapping) (addr : Nat) (lo hi : Int) : Option MemMapping :=
  if _h : lo ≤ hi then
    match mappings.get? ((lo + hi) / 2).toNat with
    | none => none
    | some m =>
      if addr < m.start then findFrom mappings addr lo ((lo + hi) / 2 - 1)
      else if addr ≥ m.stop then findFrom mappings addr ((lo + hi) / 2 + 1) hi
      else some m
  else none
termination_by (hi + 1 - lo).toNat
decreasing_by all_goals omega

/-- The `find_module` function of prof2.py: binary search for the mapping
whose `[start, end)` interval contains `addr`; `None` on a miss. -/
def find_module (mappings : List MemMapping) (addr : Nat) : Option MemMapping :=
  findFrom mappings addr 0 ((mappings.length : Int) - 1)

/-- The per-address hit path of `build_symbol_cache` (prof2.py lines 222-228):
on a `find_module` hit, the module path together with the link-time address
`vma = addr - base_vma`; `none` on a miss. -/
def resolveVma (mappings : List MemMapping) (addr : Nat) : Option (String × Int) :=
  match find_module mappings addr with
  | none => none
  | some m => some (m.path, (addr : Int) - m.base_vma)

/-! Report rows of prof2.py (`rows_from_aggs`, lines 242-263). A row is
`[mod, func_disp, calls, incl_ns, excl_ns, avg_incl, avg_excl, max_incl_ns]`;
the two average columns are computed with Python binary64 float division
(`int(a.incl_ns / a.calls)`) and are display-only — they are never read by the
sort (`key_idx` selects columns 2, 3 or 4) or the truncation, and floating
point is outside this embedding, so they are elided from `ReportRow`. -/

/-- One report row without the display-only float-average columns. -/
structure ReportRow where
  module : String
  func : String
  calls : Nat
  incl_ns : Int
  excl_ns : Int
  max_incl_ns : Int
deriving DecidableEq

/-- The sort metric, `--sort` ∈ {"exclusive", "inclusive", "calls"}. -/
inductive SortKey where
  | exclusive
  | inclusive
  | calls
deriving DecidableEq

/-- `key_idx = {"exclusive": 4, "inclusive": 3, "calls": 2}[sort_by]`: the
column the sort compares (columns hold Python ints; `calls` is cast). -/
def rowKey (k : SortKey) (r : ReportRow) : Int :=
  match k with
  | .exclusive => r.excl_ns
  | .inclusive => r.incl_ns
  | .calls => (r.calls : Int)

/-- Lowercase hexadecimal display `f"0x{addr:x}"` of an address. -/
def hexDisp (addr : Nat) : String :=
  "0x" ++ String.mk (Nat.toDigits 16 addr)

/-- The row-building loop of `rows_from_aggs` (prof2.py lines 250-257), in the
iteration (= insertion) order of the aggregate dict. The surrounding lookups
`addr2modvma.get((pid, addr), ("", None))` and `name_cache.get(...)` (absent
keys give `None`) are modelled as total functions supplied by the caller. -/
def rowsOf (pid : Nat) (aggs : AggMap)
    (addr2modvma : Nat × Nat → String × Option Int)
    (name_cache : Nat × String × Int → Option String) : List ReportRow :=
  aggs.map (fun p =>
    let mv := addr2modvma (pid, p.1)
    let name := match mv.2 with
      | some vma => name_cache (pid, mv.1, vma)
      | none => none
    ⟨mv.1,
     match name with
     | some n => n
     | none => hexDisp p.1,
     p.2.calls, p.2.incl_ns, p.2.excl_ns, p.2.max_incl_ns⟩)

/-- Stable insertion step for a descending sort: the new row goes after every
row whose key is at least its own, before the first strictly smaller one. -/
def insertDescBy (m : ReportRow → Int) (r : ReportRow) (l : List ReportRow) : List ReportRow :=
  match l with
  | [] => [r]
  | x :: xs => if m r ≤ m x then x :: insertDescBy m r xs else r :: x :: xs

/-- `rows.sort(key=lambda r: r[key_idx], reverse=True)`: Python's `list.sort`
is a stable sort, and a stable descending sort is uniquely determined by the
key, so it is embedded as the stable insertion sort processing the rows in
their original order. -/
def sortRowsBy (m : ReportRow → Int) (rows : List ReportRow) : List ReportRow :=
  rows.foldl (fun acc r => insertDescBy m r acc) []

/-- The `rows_from_aggs` function of prof2.py (lines 242-263): build the rows,
sort them descending by the chosen metric, and truncate to the top `top_n`
rows when `top_n > 0`. -/
def rows_from_aggs (pid : Nat) (aggs : AggMap)
    (addr2modvma : Nat × Nat → String × Option Int)
    (name_cache : Nat × String × Int → Option String)
    (sort_by : SortKey) (top_n : Nat) : List ReportRow :=
  if 0 < top_n then (sortRowsBy (rowKey sort_by) (rowsOf pid aggs addr2modvma name_cache)).take top_n
  else sortRowsBy (rowKey sort_by) (rowsOf pid aggs addr2modvma name_cache)

/-! Aggregation across threads (prof2.py lines 198-200). -/

/-- The binary merge of two aggregates, as `merge_aggs` performs it per
address: `agg_add(dst.get(addr), calls=a.calls, incl=a.incl_ns,
excl=a.excl_ns, mx=a.max_incl_ns)` with a present `dst` entry. -/
def mergeOne (a b : Agg) : Agg :=
  agg_add (some a) b.calls b.incl_ns b.excl_ns b.max_incl_ns

/-- The `merge_aggs` function of prof2.py (lines 198-200): fold the entries of
`src` into `dst`. -/
def merge_aggs (dst src : AggMap) : AggMap :=
  src.foldl (fun d p =>
    aggSet d p.1 (agg_add (aggGet d p.1) p.2.calls p.2.incl_ns p.2.excl_ns p.2.max_incl_ns)) dst

/-! The `Prof` namespace embeds `src/instruments/prof.py`, the earlier variant
of the same analyzer. Its record loop (lines 91-120) is textually identical to
prof2.py's; it differs in reading all record bytes after the header into
`data` and looping `for _ in range(len(data) // RECORD_SZ)`, in accumulating
into a caller-supplied `global_aggs` dict instead of a fresh one, and in its
`agg_add` (lines 11-13), which rewrites `None` to `Agg(0,0,0,0)` before
combining. -/

namespace Prof

/-- The `agg_add` function of prof.py (lines 11-13). -/
def agg_add (a : Option Agg) (calls : Nat) (incl excl mx : Int) : Agg :=
  match a with
  | none => ⟨0 + calls, 0 + incl, 0 + excl, max 0 mx⟩
  | some a => ⟨a.calls + calls, a.incl_ns + incl, a.excl_ns + excl, max a.max_incl_ns mx⟩

/-- The Exit-event drain loop of prof.py's `analyze_thread_file` (lines
98-109), identical in structure to prof2.py's. -/
def drain (fn : Nat) (ts : Int) (stack : Stack) (aggs : AggMap) : Stack × AggMap :=
  match stack with
  | [] => ([], aggs)
  | top :: rest =>
    if top.fn = fn then
      (addChild (if top.start ≤ ts then ts - top.start else 0) rest,
       aggSet aggs top.fn (Prof.agg_add (aggGet aggs top.fn) 1
         (if top.start ≤ ts then ts - top.start else 0)
         (if top.child ≤ (if top.start ≤ ts then ts - top.start else 0)
            then (if top.start ≤ ts then ts - top.start else 0) - top.child else 0)
         (if top.start ≤ ts then ts - top.start else 0)))
    else
      Prof.drain fn ts
        (addChild (if top.start ≤ ts then ts - top.start else 0) rest)
        (aggSet aggs top.fn (Prof.agg_add (aggGet aggs top.fn) 1
          (if top.start ≤ ts then ts - top.start else 0)
          (if top.child ≤ (if top.start ≤ ts then ts - top.start else 0)
             then (if top.start ≤ ts then ts - top.start else 0) - top.child else 0)
          (if top.start ≤ ts then ts - top.start else 0)))
termination_by stack.length
decreasing_by
  have hlen : ∀ (d : Int) (s : Stack), (addChild d s).length = s.length := by
    intro d s
    cases s with
    | nil => rfl
    | cons f r => cases f; rfl
  simp [hlen]

/-- Processing one record in prof.py (lines 92-109). -/
def stepRecord (st : TState) (r : TraceRecord) : TState :=
  if r.typ = 0 then
    ⟨⟨r.fn, r.ts, 0⟩ :: st.stack, st.aggs, some r.ts⟩
  else
    ⟨(Prof.drain r.fn r.ts st.stack st.aggs).1,
     (Prof.drain r.fn r.ts st.stack st.aggs).2, some r.ts⟩

/-- The end-of-stream loop of prof.py's `analyze_thread_file` (lines 112-120). -/
def forceClose (endTs : Int) (stack : Stack) (aggs : AggMap) : AggMap :=
  match stack with
  | [] => aggs
  | top :: rest =>
    Prof.forceClose endTs
      (addChild (if top.start ≤ endTs then endTs - top.start else 0) rest)
      (aggSet aggs top.fn (Prof.agg_add (aggGet aggs top.fn) 1
        (if top.start ≤ endTs then endTs - top.start else 0)
        (if top.child ≤ (if top.start ≤ endTs then endTs - top.start else 0)
           then (if top.start ≤ endTs then endTs - top.start else 0) - top.child else 0)
        (if top.start ≤ endTs then endTs - top.start else 0)))
termination_by stack.length
decreasing_by
  have hlen : ∀ (d : Int) (s : Stack), (addChild d s).length = s.length := by
    intro d s
    cases s with
    | nil => rfl
    | cons f r => cases f; rfl
  simp [hlen]

/-- The `load_header` function of prof.py (lines 71-80): same checks as
prof2.py's (`f.read(HEADER_SZ)` yields fewer than `HEADER_SZ` bytes exactly
when the file is shorter than that). -/
def load_header (data : List Nat) : Except String TraceHeader :=
  if data.length < HEADER_SZ then .error "bad header length"
  else if sliceBytes data 0 7 ≠ MAGIC then .error "bad magic"
  else if decodeLE (sliceBytes data 24 4) ≠ RECORD_SZ then .error "record size mismatch"
  else .ok ⟨decodeLE (sliceBytes data 8 4), decodeLE (sliceBytes data 12 4),
            decodeLE (sliceBytes data 16 8), decodeLE (sliceBytes data 28 4)⟩

/-- The record loop of prof.py (lines 88-91): after the header is consumed,
`data = f.read()` holds the remaining bytes, and exactly
`len(data) // RECORD_SZ` records are unpacked at offsets 0, 24, 48, ... -/
def readRecordsCount (rest : List Nat) (off : Nat) : Nat → List TraceRecord
  | 0 => []
  | n + 1 => parseRecord rest off :: readRecordsCount rest (off + RECORD_SZ) n

/-- The `analyze_thread_file` function of prof.py (lines 82-120): validate the
header, then run the record loop accumulating into the caller-supplied
`global_aggs`, force-closing leftover frames; the Python function mutates
`global_aggs` in place, embedded here as returning the final dict. -/
def analyze_thread_file (data : List Nat) (global_aggs : AggMap) : Except String AggMap :=
  match Prof.load_header data with
  | .error e => .error e
  | .ok _ =>
    let rest := data.drop HEADER_SZ
    let recs := readRecordsCount rest 0 (rest.length / RECORD_SZ)
    match recs.foldl Prof.stepRecord ⟨[], global_aggs, none⟩ with
    | ⟨[], aggs, _⟩ => .ok aggs
    | ⟨f :: fs, aggs, some ts⟩ => .ok (Prof.forceClose ts (f :: fs) aggs)
    | ⟨_ :: _, aggs, none⟩ => .ok aggs

end Prof

/-! Specification vocabulary. The remaining definitions do not embed source
code; they give the formal vocabulary in which the claims about the source
functions above are stated: a decomposition of the drain and force-close
loops into "frames popped" and "per-frame closing values", and call trees
describing perfectly balanced, correctly nested Enter/Exit sequences. -/

/-- Index of the topmost stack frame whose address is `fn`, when any. -/
def findFnIdx (fn : Nat) : Stack → Option Nat
  | [] => none
  | f :: fs => if f.fn = fn then some 0 else (findFnIdx fn fs).map (· + 1)

/-- How many frames an Exit event for `fn` pops: up to and including the first
frame whose address is `fn`, or the whole stack when none matches. -/
def popCount (fn : Nat) (stack : Stack) : Nat :=
  match findFnIdx fn stack with
  | some i => i + 1
  | none => stack.length

/-- Closing a list of popped frames in order against exit time `ts`: each
frame is closed with `incl = max(0, ts - start)` and `excl = max(0, incl -
child)`, where `child` counts the previous popped frame's inclusive time
(`carry`), since the drain loop adds it to the frame below before popping it.
Returns the updated aggregates and the inclusive time of the last popped frame
(0 when none was popped), which the drain loop adds to the frame left on top. -/
def closeFrames (ts carry : Int) (aggs : AggMap) : List StackFrame → AggMap × Int
  | [] => (aggs, carry)
  | f :: fs =>
    closeFrames ts (if f.start ≤ ts then ts - f.start else 0)
      (aggSet aggs f.fn (agg_add (aggGet aggs f.fn) 1
        (if f.start ≤ ts then ts - f.start else 0)
        (if f.child + carry ≤ (if f.start ≤ ts then ts - f.start else 0)
           then (if f.start ≤ ts then ts - f.start else 0) - (f.child + carry) else 0)
        (if f.start ≤ ts then ts - f.start else 0)))
      fs

/-- The `(inclusive, exclusive)` pairs recorded for a list of popped frames,
in pop order, with the same carry discipline as `closeFrames`. -/
def closedDurs (ts carry : Int) : List StackFrame → List (Int × Int)
  | [] => []
  | f :: fs =>
    ((if f.start ≤ ts then ts - f.start else 0),
     (if f.child + carry ≤ (if f.start ≤ ts then ts - f.start else 0)
        then (if f.start ≤ ts then ts - f.start else 0) - (f.child + carry) else 0)) ::
    closedDurs ts (if f.start ≤ ts then ts - f.start else 0) fs

/-! A call tree: one completed invocation of function `fn`, entered at `tin`,
exited at `tout`, with the completed invocations nested directly inside it. -/
mutual
inductive CallTree where
  | node (fn : Nat) (tin tout : Int) (children : CallForest)
inductive CallForest where
  | nil
  | cons (t : CallTree) (ts : CallForest)
end

/-- Function address of a call. -/
def fnOf : CallTree → Nat
  | .node f _ _ _ => f

/-- Enter timestamp of a call. -/
def tinOf : CallTree → Int
  | .node _ a _ _ => a

/-- Exit timestamp of a call. -/
def toutOf : CallTree → Int
  | .node _ _ b _ => b

/-- Direct children of a call. -/
def childrenOf : CallTree → CallForest
  | .node _ _ _ cs => cs

/-- Inclusive duration of a call as the spec computes it: exit minus enter. -/
def inclDur (t : CallTree) : Int := toutOf t - tinOf t

/-- Inclusive duration of a call as the reconstruction records it:
`max(0, tout - tin)`. Equal to `inclDur` on well-formed trees. -/
def cIncl (t : CallTree) : Int :=
  if tinOf t ≤ toutOf t then toutOf t - tinOf t else 0

/-- Sum of the recorded inclusive durations over a forest. -/
def cInclSum : CallForest → Int
  | .nil => 0
  | .cons t ts => cIncl t + cInclSum ts

/-- Sum of the spec-level inclusive durations over a forest. -/
def inclDurSum : CallForest → Int
  | .nil => 0
  | .cons t ts => inclDur t + inclDurSum ts

/-- Sum of the direct children's inclusive durations of one call. -/
def childSumOf (t : CallTree) : Int := inclDurSum (childrenOf t)

/-! The perfectly balanced, correctly nested record sequence of a call tree:
its Enter record, the records of its children, its Exit record. -/
mutual
def flattenT : CallTree → List TraceRecord
  | .node f a b cs => ⟨a, f, 0⟩ :: (flattenF cs ++ [⟨b, f, 1⟩])
def flattenF : CallForest → List TraceRecord
  | .nil => []
  | .cons t ts => flattenT t ++ flattenF ts
end

/-! Well-formedness of the timestamps: `wfT lo t` holds when every timestamp
of `t` is at least `lo` and the flattened record sequence has nondecreasing
timestamps; `wfF lo hi cs` additionally bounds the trees between `lo` and
`hi`, in order. -/
mutual
def wfT (lo : Int) : CallTree → Bool
  | .node _ a b cs => decide (lo ≤ a) && wfF a b cs
def wfF (lo hi : Int) : CallForest → Bool
  | .nil => decide (lo ≤ hi)
  | .cons t ts => wfT lo t && wfF (toutOf t) hi ts
end

/-! The aggregates produced by closing a forest's calls in postorder, exactly
as the reconstruction closes them: children first, each call closed with its
clamped inclusive time and its children's recorded inclusive sum as child
time. -/
mutual
def accT (A : AggMap) : CallTree → AggMap
  | .node f a b cs =>
    aggSet (accF A cs) f (agg_add (aggGet (accF A cs) f) 1
      (if a ≤ b then b - a else 0)
      (if cInclSum cs ≤ (if a ≤ b then b - a else 0)
         then (if a ≤ b then b - a else 0) - cInclSum cs else 0)
      (if a ≤ b then b - a else 0))
def accF (A : AggMap) : CallForest → AggMap
  | .nil => A
  | .cons t ts => accF (accT A t) ts
end

/-- The `last_ts` value after processing a forest's records, starting from `l`. -/
def lastOut (l : Option Int) : CallForest → Option Int
  | .nil => l
  | .cons t ts => lastOut (some (toutOf t)) ts

/-! Number of calls of function `f` in a tree / forest. -/
mutual
def countAtT (f : Nat) : CallTree → Nat
  | .node g _ _ cs => (if g = f then 1 else 0) + countAtF f cs
def countAtF (f : Nat) : CallForest → Nat
  | .nil => 0
  | .cons t ts => countAtT f t + countAtF f ts
end

/-! Sum of the inclusive durations of the calls of function `f`. -/
mutual
def inclAtT (f : Nat) : CallTree → Int
  | .node g a b cs => (if g = f then b - a else 0) + inclAtF f cs
def inclAtF (f : Nat) : CallForest → Int
  | .nil => 0
  | .cons t ts => inclAtT f t + inclAtF f ts
end

/-! Sum, over the calls of function `f`, of their direct children's inclusive
durations. -/
mutual
def childTotalAtT (f : Nat) : CallTree → Int
  | .node g _ _ cs => (if g = f then inclDurSum cs else 0) + childTotalAtF f cs
def childTotalAtF (f : Nat) : CallForest → Int
  | .nil => 0
  | .cons t ts => childTotalAtT f t + childTotalAtF f ts
end

/-! Lemmas about the association-list dictionary and the stack helpers. -/

theorem addChild_length (d : Int) (s : Stack) : (addChild d s).length = s.length := by
  cases s with
  | nil => rfl
  | cons f rest => cases f; rfl

theorem aggGet_aggSet (A : AggMap) (k : Nat) (v : Agg) (f : Nat) :
    aggGet (aggSet A k v) f = if k = f then some v else aggGet A f := by
  induction A with
  | nil => simp [aggSet, aggGet]
  | cons p rest ih =>
    obtain ⟨k', v'⟩ := p
    by_cases h1 : k' = k
    · subst h1
      by_cases h2 : k' = f <;> simp [aggSet, aggGet, h2]
    · by_cases h2 : k' = f
      · subst h2
        have h3 : ¬ k = k' := fun h => h1 h.symm
        simp [aggSet, aggGet, h1, h3]
      · simp [aggSet, aggGet, h1, h2, ih]

theorem callsSum_closeUpd (A : AggMap) (k : Nat) (c : Nat) (i e m : Int) :
    callsSum (aggSet A k (agg_add (aggGet A k) c i e m)) = callsSum A + c := by
  induction A with
  | nil => simp [callsSum, aggSet, aggGet, agg_add]
  | cons p rest ih =>
    obtain ⟨k', v'⟩ := p
    by_cases h1 : k' = k
    · subst h1
      simp [callsSum, aggSet, aggGet, agg_add]
      omega
    · simp [callsSum, aggSet, aggGet, h1] at ih ⊢
      omega

theorem inclSumTotal_closeUpd (A : AggMap) (k : Nat) (c : Nat) (i e m : Int) :
    inclSumTotal (aggSet A k (agg_add (aggGet A k) c i e m)) = inclSumTotal A + i := by
  induction A with
  | nil => simp [inclSumTotal, aggSet, aggGet, agg_add]
  | cons p rest ih =>
    obtain ⟨k', v'⟩ := p
    by_cases h1 : k' = k
    · subst h1
      simp [inclSumTotal, aggSet, aggGet, agg_add]
      ring
    · simp [inclSumTotal, aggSet, aggGet, h1] at ih ⊢
      omega

theorem exclSumTotal_closeUpd (A : AggMap) (k : Nat) (c : Nat) (i e m : Int) :
    exclSumTotal (aggSet A k (agg_add (aggGet A k) c i e m)) = exclSumTotal A + e := by
  induction A with
  | nil => simp [exclSumTotal, aggSet, aggGet, agg_add]
  | cons p rest ih =>
    obtain ⟨k', v'⟩ := p
    by_cases h1 : k' = k
    · subst h1
      simp [exclSumTotal, aggSet, aggGet, agg_add]
      ring
    · simp [exclSumTotal, aggSet, aggGet, h1] at ih ⊢
      omega

theorem callsAt_closeUpd (A : AggMap) (k : Nat) (c : Nat) (i e m : Int) (f : Nat) :
    callsAt (aggSet A k (agg_add (aggGet A k) c i e m)) f =
      callsAt A f + (if k = f then c else 0) := by
  rw [callsAt, aggGet_aggSet]
  by_cases h1 : k = f
  · subst h1
    cases h2 : aggGet A k <;> simp [callsAt, agg_add, h2]
  · simp [callsAt, h1]

theorem inclAt_closeUpd (A : AggMap) (k : Nat) (c : Nat) (i e m : Int) (f : Nat) :
    inclAt (aggSet A k (agg_add (aggGet A k) c i e m)) f =
      inclAt A f + (if k = f then i else 0) := by
  rw [inclAt, aggGet_aggSet]
  by_cases h1 : k = f
  · subst h1
    cases h2 : aggGet A k <;> simp [inclAt, agg_add, h2]
  · simp [inclAt, h1]

theorem exclAt_closeUpd (A : AggMap) (k : Nat) (c : Nat) (i e m : Int) (f : Nat) :
    exclAt (aggSet A k (agg_add (aggGet A k) c i e m)) f =
      exclAt A f + (if k = f then e else 0) := by
  rw [exclAt, aggGet_aggSet]
  by_cases h1 : k = f
  · subst h1
    cases h2 : aggGet A k <;> simp [exclAt, agg_add, h2]
  · simp [exclAt, h1]

theorem addChild_zero (s : Stack) : addChild 0 s = s := by
  cases s with
  | nil => rfl
  | cons f rest => obtain ⟨a, b, c⟩ := f; simp [addChild]

theorem addChild_addChild (d1 d2 : Int) (s : Stack) :
    addChild d2 (addChild d1 s) = addChild (d1 + d2) s := by
  cases s with
  | nil => rfl
  | cons f rest => obtain ⟨a, b, c⟩ := f; simp [addChild]; ring

theorem popCount_cons_nomatch (fn : Nat) (top : StackFrame) (rest : Stack)
    (h : top.fn ≠ fn) : popCount fn (top :: rest) = popCount fn rest + 1 := by
  rw [popCount, popCount, findFnIdx]
  rw [if_neg h]
  cases h2 : findFnIdx fn rest <;> simp [h2, List.length_cons]

/-! The drain and force-close loops, decomposed into popped prefix, untouched
suffix, and per-frame closing values. -/

theorem drain_closeFrames (fn : Nat) (ts : Int) (stack : Stack) :
    ∀ (aggs : AggMap) (c : Int),
      drain fn ts (addChild c stack) aggs =
        (addChild (closeFrames ts c aggs (stack.take (popCount fn stack))).2
           (stack.drop (popCount fn stack)),
         (closeFrames ts c aggs (stack.take (popCount fn stack))).1) := by
  induction stack with
  | nil => intro aggs c; simp [drain, popCount, findFnIdx, closeFrames, addChild]
  | cons top rest ih =>
    intro aggs c
    obtain ⟨tf, tst, tch⟩ := top
    by_cases h : tf = fn
    · subst h
      simp [addChild, drain, popCount, findFnIdx, closeFrames]
    · have hpc : popCount fn (⟨tf, tst, tch⟩ :: rest) = popCount fn rest + 1 :=
        popCount_cons_nomatch fn ⟨tf, tst, tch⟩ rest h
      have hac : addChild c (⟨tf, tst, tch⟩ :: rest) = ⟨tf, tst, tch + c⟩ :: rest := rfl
      rw [hpc, hac]
      simp only [drain]
      rw [if_neg h, ih]
      simp only [List.take_succ_cons, List.drop_succ_cons, closeFrames]

theorem forceClose_closeFrames (ts : Int) (stack : Stack) :
    ∀ (aggs : AggMap) (c : Int),
      forceClose ts (addChild c stack) aggs = (closeFrames ts c aggs stack).1 := by
  induction stack with
  | nil => intro aggs c; simp [forceClose, closeFrames, addChild]
  | cons top rest ih =>
    intro aggs c
    obtain ⟨tf, tst, tch⟩ := top
    have hac : addChild c (⟨tf, tst, tch⟩ :: rest) = ⟨tf, tst, tch + c⟩ :: rest := rfl
    rw [hac]
    simp only [forceClose]
    rw [ih]
    simp only [closeFrames]

theorem closeFrames_callsSum (ts : Int) (fs : List StackFrame) :
    ∀ (c : Int) (A : AggMap),
      callsSum (closeFrames ts c A fs).1 = callsSum A + fs.length := by
  induction fs with
  | nil => intro c A; simp [closeFrames]
  | cons f rest ih =>
    intro c A
    simp only [closeFrames]
    rw [ih, callsSum_closeUpd]
    simp only [List.length_cons]
    omega

theorem closeFrames_inclSum (ts : Int) (fs : List StackFrame) :
    ∀ (c : Int) (A : AggMap),
      inclSumTotal (closeFrames ts c A fs).1 =
        inclSumTotal A + ((closedDurs ts c fs).map Prod.fst).sum := by
  induction fs with
  | nil => intro c A; simp [closeFrames, closedDurs]
  | cons f rest ih =>
    intro c A
    simp only [closeFrames, closedDurs]
    rw [ih, inclSumTotal_closeUpd]
    simp [List.map_cons, List.sum_cons]
    ring

theorem closeFrames_exclSum (ts : Int) (fs : List StackFrame) :
    ∀ (c : Int) (A : AggMap),
      exclSumTotal (closeFrames ts c A fs).1 =
        exclSumTotal A + ((closedDurs ts c fs).map Prod.snd).sum := by
  induction fs with
  | nil => intro c A; simp [closeFrames, closedDurs]
  | cons f rest ih =>
    intro c A
    simp only [closeFrames, closedDurs]
    rw [ih, exclSumTotal_closeUpd]
    simp [List.map_cons, List.sum_cons]
    ring

theorem closedDurs_nonneg (ts : Int) (fs : List StackFrame) :
    ∀ (c : Int), ∀ p ∈ closedDurs ts c fs, 0 ≤ p.1 ∧ 0 ≤ p.2 := by
  induction fs with
  | nil => intro c p hp; simp [closedDurs] at hp
  | cons f rest ih =>
    intro c p hp
    simp only [closedDurs, List.mem_cons] at hp
    rcases hp with hp | hp
    · subst hp
      constructor <;> dsimp only <;> split_ifs <;> omega
    · exact ih _ p hp

theorem findFnIdx_some_lt (fn : Nat) (s : Stack) :
    ∀ i, findFnIdx fn s = some i → i < s.length := by
  induction s with
  | nil => intro i hi; simp [findFnIdx] at hi
  | cons f rest ih =>
    intro i hi
    by_cases h : f.fn = fn
    · simp [findFnIdx, h] at hi
      simp [List.length_cons]
      omega
    · simp only [findFnIdx, if_neg h] at hi
      cases h2 : findFnIdx fn rest with
      | none => rw [h2] at hi; simp at hi
      | some j =>
        rw [h2] at hi
        simp at hi
        have := ih j h2
        simp [List.length_cons]
        omega

theorem popCount_le (fn : Nat) (s : Stack) : popCount fn s ≤ s.length := by
  rw [popCount]
  cases h : findFnIdx fn s with
  | none => exact le_refl _
  | some i => exact findFnIdx_some_lt fn s i h

/-! Call-count bookkeeping: every pushed frame is closed exactly once. -/

theorem drain_callsLen (fn : Nat) (ts : Int) (stack : Stack) (aggs : AggMap) :
    callsSum (drain fn ts stack aggs).2 + (drain fn ts stack aggs).1.length =
      callsSum aggs + stack.length := by
  have hd := drain_closeFrames fn ts stack aggs 0
  rw [addChild_zero] at hd
  rw [hd]
  simp only [addChild_length, List.length_drop]
  rw [closeFrames_callsSum]
  have h1 := popCount_le fn stack
  simp [List.length_take]
  omega

theorem forceClose_callsSum (ts : Int) (stack : Stack) (aggs : AggMap) :
    callsSum (forceClose ts stack aggs) = callsSum aggs + stack.length := by
  have hf := forceClose_closeFrames ts stack aggs 0
  rw [addChild_zero] at hf
  rw [hf, closeFrames_callsSum]

theorem stepRecord_callsLen (st : TState) (r : TraceRecord) :
    callsSum (stepRecord st r).aggs + (stepRecord st r).stack.length =
      callsSum st.aggs + st.stack.length + (if r.typ = 0 then 1 else 0) := by
  by_cases h : r.typ = 0
  · simp only [stepRecord, if_pos h, if_pos h, List.length_cons]
    omega
  · simp only [stepRecord, if_neg h]
    have := drain_callsLen r.fn r.ts st.stack st.aggs
    omega

theorem countEnters_cons (r : TraceRecord) (rs : List TraceRecord) :
    countEnters (r :: rs) = (if r.typ = 0 then 1 else 0) + countEnters rs := by
  by_cases h : r.typ = 0 <;> simp [countEnters, List.filter_cons, h] <;> omega

theorem foldl_callsLen (recs : List TraceRecord) :
    ∀ st : TState,
      callsSum (recs.foldl stepRecord st).aggs + (recs.foldl stepRecord st).stack.length =
        callsSum st.aggs + st.stack.length + countEnters recs := by
  induction recs with
  | nil => intro st; simp [countEnters]
  | cons r rs ih =>
    intro st
    rw [List.foldl_cons, ih, stepRecord_callsLen, countEnters_cons]
    omega

theorem stepRecord_lastTs (st : TState) (r : TraceRecord) :
    (stepRecord st r).lastTs = some r.ts := by
  by_cases h : r.typ = 0 <;> simp [stepRecord, h]

theorem foldl_lastTs (recs : List TraceRecord) (st : TState) (r : TraceRecord)
    (h : recs.getLast? = some r) :
    (recs.foldl stepRecord st).lastTs = some r.ts := by
  induction recs using List.reverseRecOn with
  | nil => simp at h
  | append_singleton rs x ih =>
    rw [List.getLast?_concat] at h
    simp only [Option.some.injEq] at h
    subst h
    rw [List.foldl_append, List.foldl_cons, List.foldl_nil, stepRecord_lastTs]

/-- When the record loop leaves open frames, `analyze_thread_file` takes the
force-close branch at the last record's timestamp. -/
theorem analyzeRecords_forceClose (recs : List TraceRecord) (ts : Int)
    (hne : (recs.foldl stepRecord initState).stack ≠ [])
    (hts : recsLastTs recs = some ts) :
    analyzeRecords recs =
      forceClose ts (recs.foldl stepRecord initState).stack
        (recs.foldl stepRecord initState).aggs := by
  have hlast : (recs.foldl stepRecord initState).lastTs = some ts := by
    rw [recsLastTs] at hts
    cases h : recs.getLast? with
    | none => rw [h] at hts; simp at hts
    | some r =>
      rw [h] at hts
      have hr : r.ts = ts := by simpa using hts
      rw [foldl_lastTs recs initState r h, hr]
  rw [analyzeRecords]
  rcases hst : recs.foldl stepRecord initState with ⟨s, a, l⟩
  rw [hst] at hne hlast
  cases s with
  | nil => exact absurd rfl hne
  | cons f fs =>
    simp only at hlast
    subst hlast
    simp

/-! The stack machine run on a flattened call forest: processing a tree's
records pushes one frame, processes the children, and closes the frame at the
exit record, crediting its recorded inclusive time to the frame below. -/

mutual
theorem runT (t : CallTree) :
    ∀ (S : Stack) (A : AggMap) (l : Option Int),
      List.foldl stepRecord ⟨S, A, l⟩ (flattenT t) =
        ⟨addChild (cIncl t) S, accT A t, some (toutOf t)⟩ := by
  cases t with
  | node f a b cs =>
    intro S A l
    have hstep : stepRecord ⟨S, A, l⟩ ⟨a, f, 0⟩ = ⟨⟨f, a, 0⟩ :: S, A, some a⟩ := by
      simp [stepRecord]
    simp only [flattenT, List.foldl_cons, hstep, List.foldl_append]
    rw [runF cs]
    have hac : addChild (cInclSum cs) (⟨f, a, 0⟩ :: S) = ⟨f, a, 0 + cInclSum cs⟩ :: S := rfl
    rw [hac, zero_add]
    simp only [List.foldl_cons, List.foldl_nil]
    have h1 : (1 : Nat) ≠ 0 := one_ne_zero
    simp only [stepRecord, if_neg (by simp : ¬ ((⟨b, f, 1⟩ : TraceRecord).typ = 0))]
    simp only [drain, if_pos rfl]
    simp [accT, cIncl, tinOf, toutOf]
theorem runF (cs : CallForest) :
    ∀ (S : Stack) (A : AggMap) (l : Option Int),
      List.foldl stepRecord ⟨S, A, l⟩ (flattenF cs) =
        ⟨addChild (cInclSum cs) S, accF A cs, lastOut l cs⟩ := by
  cases cs with
  | nil =>
    intro S A l
    simp [flattenF, cInclSum, accF, lastOut, addChild_zero]
  | cons t ts =>
    intro S A l
    simp only [flattenF, List.foldl_append]
    rw [runT t, runF ts, addChild_addChild]
    simp [cInclSum, accF, lastOut]
end

/-- Reconstructing a perfectly balanced, correctly nested record sequence: the
stack empties, nothing is force-closed, and the aggregates are the postorder
closures of the forest. -/
theorem analyzeRecords_flattenF (cs : CallForest) :
    analyzeRecords (flattenF cs) = accF [] cs := by
  have h := runF cs [] [] none
  rw [analyzeRecords, show (initState : TState) = ⟨[], [], none⟩ from rfl, h]
  rfl

/-! Arithmetic consequences of timestamp well-formedness. -/

mutual
theorem wfT_facts (t : CallTree) :
    ∀ lo : Int, wfT lo t = true →
      lo ≤ tinOf t ∧ tinOf t ≤ toutOf t ∧ cIncl t = inclDur t ∧
      cInclSum (childrenOf t) = inclDurSum (childrenOf t) ∧
      0 ≤ inclDurSum (childrenOf t) ∧ inclDurSum (childrenOf t) ≤ inclDur t := by
  cases t with
  | node f a b cs =>
    intro lo h
    rw [wfT, Bool.and_eq_true, decide_eq_true_iff] at h
    obtain ⟨h1, h2⟩ := h
    have hf := wfF_facts cs a b h2
    obtain ⟨hab, hsum, hpos, hbound⟩ := hf
    refine ⟨h1, hab, ?_, ?_, hpos, ?_⟩
    · simp [cIncl, inclDur, tinOf, toutOf, if_pos hab]
    · simpa [childrenOf] using hsum
    · simp only [childrenOf, inclDur, tinOf, toutOf]
      omega
theorem wfF_facts (cs : CallForest) :
    ∀ lo hi : Int, wfF lo hi cs = true →
      lo ≤ hi ∧ cInclSum cs = inclDurSum cs ∧ 0 ≤ inclDurSum cs ∧
      lo + inclDurSum cs ≤ hi := by
  cases cs with
  | nil =>
    intro lo hi h
    rw [wfF, decide_eq_true_iff] at h
    refine ⟨h, rfl, le_refl 0, by simp only [inclDurSum]; omega⟩
  | cons t ts =>
    intro lo hi h
    rw [wfF, Bool.and_eq_true] at h
    obtain ⟨h1, h2⟩ := h
    have ht := wfT_facts t lo h1
    obtain ⟨hlo, hio, hci, _, _, _⟩ := ht
    have hf := wfF_facts ts (toutOf t) hi h2
    obtain ⟨hhi, hsum, hpos, hbound⟩ := hf
    have hdur : 0 ≤ inclDur t := by simp only [inclDur]; omega
    refine ⟨by omega, ?_, ?_, ?_⟩
    · simp only [cInclSum, inclDurSum, hci, hsum]
    · simp only [inclDurSum]
      omega
    · simp only [inclDurSum, inclDur] at *
      omega
end

/-! Characterizing the postorder aggregates of a well-formed forest. -/

mutual
theorem inclAt_accT (t : CallTree) :
    ∀ lo : Int, wfT lo t = true → ∀ (A : AggMap) (f : Nat),
      inclAt (accT A t) f = inclAt A f + inclAtT f t := by
  cases t with
  | node g a b cs =>
    intro lo h A f
    rw [wfT, Bool.and_eq_true, decide_eq_true_iff] at h
    obtain ⟨h1, h2⟩ := h
    have hf := wfF_facts cs a b h2
    obtain ⟨hab, hsum, hpos, hbound⟩ := hf
    rw [accT, inclAt_closeUpd]
    rw [inclAt_accF cs a b h2 A f]
    rw [if_pos hab]
    simp only [inclAtT]
    by_cases hg : g = f <;> simp [hg] <;> ring
theorem inclAt_accF (cs : CallForest) :
    ∀ lo hi : Int, wfF lo hi cs = true → ∀ (A : AggMap) (f : Nat),
      inclAt (accF A cs) f = inclAt A f + inclAtF f cs := by
  cases cs with
  | nil => intro lo hi h A f; simp [accF, inclAtF]
  | cons t ts =>
    intro lo hi h A f
    rw [wfF, Bool.and_eq_true] at h
    obtain ⟨h1, h2⟩ := h
    rw [accF, inclAt_accF ts (toutOf t) hi h2, inclAt_accT t lo h1]
    simp only [inclAtF]
    ring
end

mutual
theorem exclAt_accT (t : CallTree) :
    ∀ lo : Int, wfT lo t = true → ∀ (A : AggMap) (f : Nat),
      exclAt (accT A t) f = exclAt A f + (inclAtT f t - childTotalAtT f t) := by
  cases t with
  | node g a b cs =>
    intro lo h A f
    rw [wfT, Bool.and_eq_true, decide_eq_true_iff] at h
    obtain ⟨h1, h2⟩ := h
    have hf := wfF_facts cs a b h2
    obtain ⟨hab, hsum, hpos, hbound⟩ := hf
    rw [accT, exclAt_closeUpd]
    rw [exclAt_accF cs a b h2 A f]
    rw [if_pos hab, hsum, if_pos (by omega : inclDurSum cs ≤ b - a)]
    by_cases hg : g = f <;> simp [hg, inclAtT, childTotalAtT] <;> ring
theorem exclAt_accF (cs : CallForest) :
    ∀ lo hi : Int, wfF lo hi cs = true → ∀ (A : AggMap) (f : Nat),
      exclAt (accF A cs) f = exclAt A f + (inclAtF f cs - childTotalAtF f cs) := by
  cases cs with
  | nil => intro lo hi h A f; simp [accF, inclAtF, childTotalAtF]
  | cons t ts =>
    intro lo hi h A f
    rw [wfF, Bool.and_eq_true] at h
    obtain ⟨h1, h2⟩ := h
    rw [accF, exclAt_accF ts (toutOf t) hi h2, exclAt_accT t lo h1]
    simp only [inclAtF, childTotalAtF]
    ring
end

mutual
theorem exclSumTotal_accT (t : CallTree) :
    ∀ lo : Int, wfT lo t = true → ∀ A : AggMap,
      exclSumTotal (accT A t) = exclSumTotal A + inclDur t := by
  cases t with
  | node g a b cs =>
    intro lo h A
    rw [wfT, Bool.and_eq_true, decide_eq_true_iff] at h
    obtain ⟨h1, h2⟩ := h
    have hf := wfF_facts cs a b h2
    obtain ⟨hab, hsum, hpos, hbound⟩ := hf
    rw [accT, exclSumTotal_closeUpd]
    rw [exclSumTotal_accF cs a b h2 A]
    rw [if_pos hab, hsum, if_pos (by omega : inclDurSum cs ≤ b - a)]
    simp only [inclDur, tinOf, toutOf]
    ring
theorem exclSumTotal_accF (cs : CallForest) :
    ∀ lo hi : Int, wfF lo hi cs = true → ∀ A : AggMap,
      exclSumTotal (accF A cs) = exclSumTotal A + inclDurSum cs := by
  cases cs with
  | nil => intro lo hi h A; simp [accF, inclDurSum]
  | cons t ts =>
    intro lo hi h A
    rw [wfF, Bool.and_eq_true] at h
    obtain ⟨h1, h2⟩ := h
    rw [accF, exclSumTotal_accF ts (toutOf t) hi h2, exclSumTotal_accT t lo h1]
    simp only [inclDurSum]
    ring
end

theorem flattenT_head (t : CallTree) :
    (flattenT t).head? = some ⟨tinOf t, fnOf t, 0⟩ := by
  cases t with
  | node f a b cs => simp [flattenT, tinOf, fnOf]

theorem flattenT_getLast (t : CallTree) :
    (flattenT t).getLast? = some ⟨toutOf t, fnOf t, 1⟩ := by
  cases t with
  | node f a b cs =>
    rw [flattenT, ← List.cons_append, List.getLast?_concat]
    simp [toutOf, fnOf]

/-- C1 (amended): for every perfectly balanced, correctly nested record
sequence — the flattening of a well-formed call forest — every function
address has aggregated exclusive time equal to its aggregated inclusive time
minus the sum of its calls' direct children's inclusive times, and the sum of
exclusive time over all addresses equals the sum of the top-level calls'
durations; when the sequence consists of exactly one top-level call this
equals the last exit timestamp minus the first enter timestamp. -/
theorem C1_balanced_times (F : CallForest) (lo hi : Int) (h : wfF lo hi F = true) :
    (∀ f : Nat, exclAt (analyzeRecords (flattenF F)) f =
        inclAt (analyzeRecords (flattenF F)) f - childTotalAtF f F)
    ∧ exclSumTotal (analyzeRecords (flattenF F)) = inclDurSum F
    ∧ (∀ t : CallTree, F = CallForest.cons t CallForest.nil →
        recsFirstTs (flattenF F) = some (tinOf t) ∧
        recsLastTs (flattenF F) = some (toutOf t) ∧
        exclSumTotal (analyzeRecords (flattenF F)) = toutOf t - tinOf t) := by
  have hsum : exclSumTotal (analyzeRecords (flattenF F)) = inclDurSum F := by
    rw [analyzeRecords_flattenF, exclSumTotal_accF F lo hi h]
    simp [exclSumTotal]
  refine ⟨?_, hsum, ?_⟩
  · intro f
    rw [analyzeRecords_flattenF, exclAt_accF F lo hi h [] f, inclAt_accF F lo hi h [] f]
    simp [exclAt, inclAt, aggGet]
  · intro t hF
    subst hF
    have hflat : flattenF (CallForest.cons t CallForest.nil) = flattenT t := by
      rw [flattenF, flattenF, List.append_nil]
    refine ⟨?_, ?_, ?_⟩
    · rw [hflat, recsFirstTs, flattenT_head]
      rfl
    · rw [hflat, recsLastTs, flattenT_getLast]
      rfl
    · rw [hsum]
      simp [inclDurSum, inclDur]

/-- C1 (counterexample): the sequence
Enter 100 at 0, Exit 100 at 10, Enter 200 at 20, Exit 200 at 30
is perfectly balanced and correctly nested (it flattens a well-formed
two-tree forest), the per-address equations hold, but the total exclusive
time is 20 while last exit minus first enter is 30 - 0 = 30: the claim's
second equation fails when the balanced sequence has more than one top-level
call separated by idle time. -/
theorem C1_counterexample :
    wfF 0 30 (CallForest.cons (CallTree.node 100 0 10 CallForest.nil)
      (CallForest.cons (CallTree.node 200 20 30 CallForest.nil) CallForest.nil)) = true
    ∧ flattenF (CallForest.cons (CallTree.node 100 0 10 CallForest.nil)
        (CallForest.cons (CallTree.node 200 20 30 CallForest.nil) CallForest.nil)) =
      [⟨0, 100, 0⟩, ⟨10, 100, 1⟩, ⟨20, 200, 0⟩, ⟨30, 200, 1⟩]
    ∧ recsFirstTs [⟨0, 100, 0⟩, ⟨10, 100, 1⟩, ⟨20, 200, 0⟩, ⟨30, 200, 1⟩] = some 0
    ∧ recsLastTs [⟨0, 100, 0⟩, ⟨10, 100, 1⟩, ⟨20, 200, 0⟩, ⟨30, 200, 1⟩] = some 30
    ∧ exclSumTotal (analyzeRecords [⟨0, 100, 0⟩, ⟨10, 100, 1⟩, ⟨20, 200, 0⟩, ⟨30, 200, 1⟩]) = 20
    ∧ ¬ exclSumTotal (analyzeRecords [⟨0, 100, 0⟩, ⟨10, 100, 1⟩, ⟨20, 200, 0⟩, ⟨30, 200, 1⟩]) =
        30 - 0 := by
  have hflat : flattenF (CallForest.cons (CallTree.node 100 0 10 CallForest.nil)
      (CallForest.cons (CallTree.node 200 20 30 CallForest.nil) CallForest.nil)) =
      [⟨0, 100, 0⟩, ⟨10, 100, 1⟩, ⟨20, 200, 0⟩, ⟨30, 200, 1⟩] := by decide
  have hval : analyzeRecords [⟨0, 100, 0⟩, ⟨10, 100, 1⟩, ⟨20, 200, 0⟩, ⟨30, 200, 1⟩] =
      accF [] (CallForest.cons (CallTree.node 100 0 10 CallForest.nil)
        (CallForest.cons (CallTree.node 200 20 30 CallForest.nil) CallForest.nil)) := by
    rw [← hflat, analyzeRecords_flattenF]
  refine ⟨by decide, hflat, by decide, by decide, ?_, ?_⟩
  · rw [hval]; decide
  · rw [hval]; decide

/-- C1 (witness): the amended theorem applied to the single-root forest of
`node 7 [0,100]` with one child `node 8 [10,30]`. -/
theorem C1_witness :
    wfF 0 100 (CallForest.cons (CallTree.node 7 0 100
        (CallForest.cons (CallTree.node 8 10 30 CallForest.nil) CallForest.nil))
      CallForest.nil) = true
    ∧ exclAt (analyzeRecords (flattenF (CallForest.cons (CallTree.node 7 0 100
        (CallForest.cons (CallTree.node 8 10 30 CallForest.nil) CallForest.nil))
        CallForest.nil))) 7 =
      inclAt (analyzeRecords (flattenF (CallForest.cons (CallTree.node 7 0 100
        (CallForest.cons (CallTree.node 8 10 30 CallForest.nil) CallForest.nil))
        CallForest.nil))) 7 -
      childTotalAtF 7 (CallForest.cons (CallTree.node 7 0 100
        (CallForest.cons (CallTree.node 8 10 30 CallForest.nil) CallForest.nil))
        CallForest.nil)
    ∧ exclSumTotal (analyzeRecords (flattenF (CallForest.cons (CallTree.node 7 0 100
        (CallForest.cons (CallTree.node 8 10 30 CallForest.nil) CallForest.nil))
        CallForest.nil))) = 100 - 0 := by
  refine ⟨by decide, ?_, ?_⟩
  · exact (C1_balanced_times _ 0 100 (by decide)).1 7
  · exact ((C1_balanced_times _ 0 100 (by decide)).2.2 _ rfl).2.2

theorem find_module_c2 :
    find_module [mkMapping 0x1000 0x2000 0 "a", mkMapping 0x3000 0x4000 0x1000 "b"] 0x3500 =
      some (mkMapping 0x3000 0x4000 0x1000 "b") := by
  rw [find_module]
  rw [findFrom]
  norm_num [mkMapping]
  rw [findFrom]
  norm_num [mkMapping]

/-- C2 (counterexample): on the two parsed mappings, runtime address `0x3500`
does resolve to module `"b"`, but the link-time conversion
`vma = addr - base_vma = 0x3500 - (0x3000 - 0x1000)` yields `0x1500`, not the
claimed `0x2500`. -/
theorem C2_counterexample :
    find_module [mkMapping 0x1000 0x2000 0 "a", mkMapping 0x3000 0x4000 0x1000 "b"] 0x3500 =
      some (mkMapping 0x3000 0x4000 0x1000 "b")
    ∧ resolveVma [mkMapping 0x1000 0x2000 0 "a", mkMapping 0x3000 0x4000 0x1000 "b"] 0x3500 =
      some ("b", 0x1500)
    ∧ ¬ resolveVma [mkMapping 0x1000 0x2000 0 "a", mkMapping 0x3000 0x4000 0x1000 "b"] 0x3500 =
      some ("b", 0x2500) := by
  have hr : resolveVma [mkMapping 0x1000 0x2000 0 "a", mkMapping 0x3000 0x4000 0x1000 "b"]
      0x3500 = some ("b", 0x1500) := by
    rw [resolveVma, find_module_c2]
    norm_num [mkMapping]
  refine ⟨find_module_c2, hr, ?_⟩
  rw [hr]
  decide

/-- C2 (amended): for the mapping list parsed from the two lines with ranges
`0x1000-0x2000` (file offset 0, path "a") and `0x3000-0x4000` (file offset
`0x1000`, path "b"), resolving runtime address `0x3500` (find_module followed
by `vma = addr - base_vma`) yields module "b" and link-time address `0x1500`. -/
theorem C2_resolution :
    resolveVma [mkMapping 0x1000 0x2000 0 "a", mkMapping 0x3000 0x4000 0x1000 "b"] 0x3500 =
      some ("b", 0x1500) := by
  rw [resolveVma, find_module_c2]
  norm_num [mkMapping]

theorem mergeOne_comm (a b : Agg) : mergeOne a b = mergeOne b a := by
  obtain ⟨ac, ai, ae, am⟩ := a
  obtain ⟨bc, bi, be, bm⟩ := b
  simp only [mergeOne, agg_add, Agg.mk.injEq]
  refine ⟨by omega, by ring, by ring, max_comm _ _⟩

theorem mergeOne_assoc (a b c : Agg) :
    mergeOne (mergeOne a b) c = mergeOne a (mergeOne b c) := by
  obtain ⟨ac, ai, ae, am⟩ := a
  obtain ⟨bc, bi, be, bm⟩ := b
  obtain ⟨cc, ci, ce, cm⟩ := c
  simp only [mergeOne, agg_add, Agg.mk.injEq]
  refine ⟨by omega, by ring, by ring, max_assoc _ _ _⟩

theorem mergeOne_foldl_perm (l1 l2 : List Agg) (hp : l1.Perm l2) :
    ∀ a : Agg, l1.foldl mergeOne a = l2.foldl mergeOne a := by
  induction hp with
  | nil => intro a; rfl
  | cons x _ ih => intro a; simp only [List.foldl_cons]; exact ih (mergeOne a x)
  | swap x y l =>
    intro a
    simp only [List.foldl_cons]
    rw [mergeOne_assoc, mergeOne_comm y x, ← mergeOne_assoc]
  | trans _ _ ih1 ih2 => intro a; rw [ih1 a, ih2 a]

/-- C3: merging no prior aggregate with an incoming aggregate yields the
incoming aggregate; merging two aggregates sums call counts and both time
totals and takes the max of the max-inclusive fields; the binary merge is
commutative and associative, so any merge order over the same multiset of
aggregates gives the same result; and the concrete example from the spec. -/
theorem C3_merge_algebra :
    (∀ b : Agg, agg_add none b.calls b.incl_ns b.excl_ns b.max_incl_ns = b)
    ∧ (∀ a b : Agg, mergeOne a b =
        ⟨a.calls + b.calls, a.incl_ns + b.incl_ns, a.excl_ns + b.excl_ns,
         max a.max_incl_ns b.max_incl_ns⟩)
    ∧ (∀ a b : Agg, mergeOne a b = mergeOne b a)
    ∧ (∀ a b c : Agg, mergeOne (mergeOne a b) c = mergeOne a (mergeOne b c))
    ∧ mergeOne ⟨2, 100, 60, 60⟩ ⟨1, 40, 40, 40⟩ = ⟨3, 140, 100, 60⟩
    ∧ (∀ (l1 l2 : List Agg), l1.Perm l2 → ∀ a : Agg,
        l1.foldl mergeOne a = l2.foldl mergeOne a) := by
  refine ⟨?_, ?_, mergeOne_comm, mergeOne_assoc, by decide, mergeOne_foldl_perm⟩
  · intro b; obtain ⟨bc, bi, be, bm⟩ := b; rfl
  · intro a b; rfl

/-- C3 (witness): the concrete merge example, and order-independence on a
concrete two-element permutation. -/
theorem C3_witness :
    mergeOne ⟨2, 100, 60, 60⟩ ⟨1, 40, 40, 40⟩ = ⟨3, 140, 100, 60⟩
    ∧ List.foldl mergeOne ⟨0, 0, 0, 0⟩ [⟨2, 100, 60, 60⟩, ⟨1, 40, 40, 40⟩] =
      List.foldl mergeOne ⟨0, 0, 0, 0⟩ [⟨1, 40, 40, 40⟩, ⟨2, 100, 60, 60⟩] :=
  ⟨C3_merge_algebra.2.2.2.2.1,
   C3_merge_algebra.2.2.2.2.2 _ _ (List.Perm.swap ⟨1, 40, 40, 40⟩ ⟨2, 100, 60, 60⟩ []) _⟩

theorem findFnIdx_eq_none (fn : Nat) (s : Stack) (h : ∀ f ∈ s, f.fn ≠ fn) :
    findFnIdx fn s = none := by
  induction s with
  | nil => rfl
  | cons f fs ih =>
    rw [findFnIdx, if_neg (h f (List.mem_cons_self f fs))]
    rw [ih (fun g hg => h g (List.mem_cons_of_mem f hg))]
    rfl

/-- C4: on an Exit event for `fn` at time `ts`, the drain loop pops exactly
the frames up to and including the topmost one whose address is `fn` (the
whole stack when none matches); each popped frame is closed with
`incl = max(0, ts - start)` and `excl = max(0, incl - child)` — the clamps are
the `if`-guards of `closeFrames` — adding one call, the incl/excl totals and
the max-inclusive update to its address's aggregate, and each popped frame's
inclusive time is credited to the frame below it (the carry of `closeFrames`,
and `addChild` for the frame left on top). When no frame matches, the stack is
left empty; the function is total, so no error is raised. -/
theorem C4_exit_drain (fn : Nat) (ts : Int) (stack : Stack) (aggs : AggMap) :
    drain fn ts stack aggs =
      (addChild (closeFrames ts 0 aggs (stack.take (popCount fn stack))).2
         (stack.drop (popCount fn stack)),
       (closeFrames ts 0 aggs (stack.take (popCount fn stack))).1)
    ∧ ((∀ f ∈ stack, f.fn ≠ fn) → (drain fn ts stack aggs).1 = [])
    ∧ callsSum (drain fn ts stack aggs).2 = callsSum aggs + popCount fn stack := by
  have h1 := drain_closeFrames fn ts stack aggs 0
  rw [addChild_zero] at h1
  refine ⟨h1, ?_, ?_⟩
  · intro hno
    rw [h1]
    have hfi : findFnIdx fn stack = none := findFnIdx_eq_none fn stack hno
    simp only [popCount, hfi]
    rw [List.drop_length]
    rfl
  · rw [h1]
    rw [closeFrames_callsSum]
    have hle := popCount_le fn stack
    rw [List.length_take]
    omega

/-- C4 (witness): an Exit for address 9 against a stack holding addresses 1
and 2 empties the stack and records one call per popped frame. -/
theorem C4_witness :
    (drain 9 50 [⟨1, 10, 0⟩, ⟨2, 5, 3⟩] []).1 = []
    ∧ callsSum (drain 9 50 [⟨1, 10, 0⟩, ⟨2, 5, 3⟩] []).2 =
        callsSum [] + popCount 9 [⟨1, 10, 0⟩, ⟨2, 5, 3⟩] :=
  ⟨(C4_exit_drain 9 50 [⟨1, 10, 0⟩, ⟨2, 5, 3⟩] []).2.1 (by decide),
   (C4_exit_drain 9 50 [⟨1, 10, 0⟩, ⟨2, 5, 3⟩] []).2.2⟩

/-- C5: when the record sequence leaves open frames on the stack, the
reconstruction (a total function — the Python path raises nothing) force-closes
every remaining frame using the last observed record timestamp as the synthetic
exit time: the result is exactly `closeFrames` applied to the whole remaining
stack, each frame adds one call, the recorded per-frame inclusive and exclusive
durations are listed by `closedDurs`, and each of them is non-negative (the
clamping `if`-guards). -/
theorem C5_force_close (recs : List TraceRecord) (ts : Int)
    (hne : (recs.foldl stepRecord initState).stack ≠ [])
    (hts : recsLastTs recs = some ts) :
    analyzeRecords recs =
      forceClose ts (recs.foldl stepRecord initState).stack
        (recs.foldl stepRecord initState).aggs
    ∧ analyzeRecords recs =
      (closeFrames ts 0 (recs.foldl stepRecord initState).aggs
        (recs.foldl stepRecord initState).stack).1
    ∧ callsSum (analyzeRecords recs) =
        callsSum (recs.foldl stepRecord initState).aggs +
          (recs.foldl stepRecord initState).stack.length
    ∧ inclSumTotal (analyzeRecords recs) =
        inclSumTotal (recs.foldl stepRecord initState).aggs +
          ((closedDurs ts 0 (recs.foldl stepRecord initState).stack).map Prod.fst).sum
    ∧ exclSumTotal (analyzeRecords recs) =
        exclSumTotal (recs.foldl stepRecord initState).aggs +
          ((closedDurs ts 0 (recs.foldl stepRecord initState).stack).map Prod.snd).sum
    ∧ ∀ p ∈ closedDurs ts 0 (recs.foldl stepRecord initState).stack, 0 ≤ p.1 ∧ 0 ≤ p.2 := by
  have h1 := analyzeRecords_forceClose recs ts hne hts
  have h2 := forceClose_closeFrames ts (recs.foldl stepRecord initState).stack
    (recs.foldl stepRecord initState).aggs 0
  rw [addChild_zero] at h2
  have h3 : analyzeRecords recs =
      (closeFrames ts 0 (recs.foldl stepRecord initState).aggs
        (recs.foldl stepRecord initState).stack).1 := by rw [h1, h2]
  refine ⟨h1, h3, ?_, ?_, ?_, closedDurs_nonneg ts _ 0⟩
  · rw [h3, closeFrames_callsSum]
  · rw [h3, closeFrames_inclSum]
  · rw [h3, closeFrames_exclSum]

/-- C5 (witness): a log consisting of a single Enter leaves one open frame,
which is force-closed at the last (only) timestamp. -/
theorem C5_witness :
    analyzeRecords [⟨0, 5, 0⟩] =
      forceClose 0 (List.foldl stepRecord initState [⟨0, 5, 0⟩]).stack
        (List.foldl stepRecord initState [⟨0, 5, 0⟩]).aggs
    ∧ callsSum (analyzeRecords [⟨0, 5, 0⟩]) =
        callsSum (List.foldl stepRecord initState [⟨0, 5, 0⟩]).aggs +
          (List.foldl stepRecord initState [⟨0, 5, 0⟩]).stack.length :=
  ⟨(C5_force_close [⟨0, 5, 0⟩] 0 (by decide) (by decide)).1,
   (C5_force_close [⟨0, 5, 0⟩] 0 (by decide) (by decide)).2.2.1⟩

theorem readRecordsFrom_length (data : List Nat) (pos : Nat) :
    (readRecordsFrom data pos).length = (data.length - pos) / RECORD_SZ := by
  induction pos using readRecordsFrom.induct data with
  | case1 pos h ih =>
    rw [readRecordsFrom, if_pos h, List.length_cons, ih]
    simp only [RECORD_SZ] at *
    omega
  | case2 pos h =>
    rw [readRecordsFrom, if_neg h]
    simp only [RECORD_SZ, List.length_nil] at *
    omega

/-- C6: reading a trace file fails exactly when the file is shorter than the
32-byte header, the 7 significant magic bytes differ from `b"FPROFv1"`, or the
header's declared record size is not the compiled-in 24; and the record loop
always yields exactly `(len - HEADER_SZ) / RECORD_SZ` records, silently
ignoring a trailing partial record. -/
theorem C6_reader (data : List Nat) :
    (exceptIsError (analyze_thread_file data) = true ↔
      (data.length < HEADER_SZ ∨ sliceBytes data 0 7 ≠ MAGIC ∨
        decodeLE (sliceBytes data 24 4) ≠ RECORD_SZ))
    ∧ (readRecords data).length = (data.length - HEADER_SZ) / RECORD_SZ := by
  constructor
  · by_cases h1 : data.length < HEADER_SZ
    · simp [analyze_thread_file, load_header, h1, exceptIsError]
    · by_cases h2 : sliceBytes data 0 7 = MAGIC
      · by_cases h3 : decodeLE (sliceBytes data 24 4) = RECORD_SZ
        · simp [analyze_thread_file, load_header, h1, h2, h3, exceptIsError]
        · simp [analyze_thread_file, load_header, h1, h2, h3, exceptIsError]
      · simp [analyze_thread_file, load_header, h1, h2, exceptIsError]
  · rw [readRecords, readRecordsFrom_length]

theorem mem_insertDescBy (m : ReportRow → Int) (r : ReportRow) (l : List ReportRow) :
    ∀ y ∈ insertDescBy m r l, y = r ∨ y ∈ l := by
  induction l with
  | nil => intro y hy; simp [insertDescBy] at hy; exact Or.inl hy
  | cons x xs ih =>
    intro y hy
    rw [insertDescBy] at hy
    by_cases h : m r ≤ m x
    · rw [if_pos h] at hy
      rcases List.mem_cons.mp hy with hy | hy
      · exact Or.inr (by simp [hy])
      · rcases ih y hy with hy | hy
        · exact Or.inl hy
        · exact Or.inr (List.mem_cons_of_mem x hy)
    · rw [if_neg h] at hy
      rcases List.mem_cons.mp hy with hy | hy
      · exact Or.inl hy
      · exact Or.inr hy

theorem pairwise_insertDescBy (m : ReportRow → Int) (r : ReportRow) (l : List ReportRow)
    (hp : List.Pairwise (fun a b => m b ≤ m a) l) :
    List.Pairwise (fun a b => m b ≤ m a) (insertDescBy m r l) := by
  induction l with
  | nil => simp [insertDescBy]
  | cons x xs ih =>
    rw [List.pairwise_cons] at hp
    obtain ⟨hx, hxs⟩ := hp
    rw [insertDescBy]
    by_cases h : m r ≤ m x
    · rw [if_pos h]
      rw [List.pairwise_cons]
      constructor
      · intro y hy
        rcases mem_insertDescBy m r xs y hy with hy | hy
        · rw [hy]; exact h
        · exact hx y hy
      · exact ih hxs
    · rw [if_neg h]
      rw [List.pairwise_cons]
      constructor
      · intro y hy
        rcases List.mem_cons.mp hy with hy | hy
        · rw [hy]; omega
        · have := hx y hy; omega
      · rw [List.pairwise_cons]
        exact ⟨hx, hxs⟩

theorem filter_insertDescBy (m : ReportRow → Int) (r : ReportRow) (l : List ReportRow)
    (hp : List.Pairwise (fun a b => m b ≤ m a) l) (v : Int) :
    (insertDescBy m r l).filter (fun y => decide (m y = v)) =
      l.filter (fun y => decide (m y = v)) ++ (if m r = v then [r] else []) := by
  induction l with
  | nil =>
    rw [insertDescBy]
    by_cases h : m r = v <;> simp [List.filter_cons, h]
  | cons x xs ih =>
    rw [List.pairwise_cons] at hp
    obtain ⟨hx, hxs⟩ := hp
    rw [insertDescBy]
    by_cases h : m r ≤ m x
    · rw [if_pos h]
      by_cases h2 : m x = v <;> simp [List.filter_cons, h2, ih hxs]
    · rw [if_neg h]
      by_cases h2 : m r = v
      · have hnil : (x :: xs).filter (fun y => decide (m y = v)) = [] := by
          rw [List.filter_eq_nil_iff]
          intro y hy
          rcases List.mem_cons.mp hy with hy | hy
          · subst hy; simp; omega
          · have := hx y hy; simp; omega
        simp [List.filter_cons, h2, hnil]
      · simp [List.filter_cons, h2]

theorem sortFold_inv (m : ReportRow → Int) (rows : List ReportRow) :
    ∀ acc : List ReportRow, List.Pairwise (fun a b => m b ≤ m a) acc →
      List.Pairwise (fun a b => m b ≤ m a)
          (rows.foldl (fun l r => insertDescBy m r l) acc)
      ∧ ∀ v : Int,
          (rows.foldl (fun l r => insertDescBy m r l) acc).filter
              (fun y => decide (m y = v)) =
            acc.filter (fun y => decide (m y = v)) ++
              rows.filter (fun y => decide (m y = v)) := by
  induction rows with
  | nil => intro acc hacc; refine ⟨hacc, fun v => by simp⟩
  | cons r rs ih =>
    intro acc hacc
    rw [List.foldl_cons]
    have h1 := ih (insertDescBy m r acc) (pairwise_insertDescBy m r acc hacc)
    refine ⟨h1.1, fun v => ?_⟩
    rw [h1.2 v, filter_insertDescBy m r acc hacc v, List.filter_cons]
    by_cases h2 : m r = v <;> simp [h2, List.append_assoc]

/-- C7: for every aggregate map, display maps, sort metric and row limit, the
emitted rows (no limit) are sorted descending by the chosen metric; for every
metric value the rows carrying that value appear exactly in their original
encounter order (stability); and a positive row limit keeps exactly the first
`n` rows of that order. -/
theorem C7_report_order (pid : Nat) (aggs : AggMap)
    (a2m : Nat × Nat → String × Option Int) (nc : Nat × String × Int → Option String)
    (k : SortKey) (n : Nat) :
    List.Pairwise (fun r s => rowKey k s ≤ rowKey k r) (rows_from_aggs pid aggs a2m nc k 0)
    ∧ (∀ v : Int,
        (rows_from_aggs pid aggs a2m nc k 0).filter (fun r => decide (rowKey k r = v)) =
          (rowsOf pid aggs a2m nc).filter (fun r => decide (rowKey k r = v)))
    ∧ (0 < n → rows_from_aggs pid aggs a2m nc k n =
        (rows_from_aggs pid aggs a2m nc k 0).take n) := by
  have h0 : rows_from_aggs pid aggs a2m nc k 0 =
      sortRowsBy (rowKey k) (rowsOf pid aggs a2m nc) := by
    rw [rows_from_aggs, if_neg (by omega : ¬ 0 < 0)]
  have hinv := sortFold_inv (rowKey k) (rowsOf pid aggs a2m nc) [] (by simp)
  refine ⟨?_, fun v => ?_, fun hn => ?_⟩
  · rw [h0, sortRowsBy]
    exact hinv.1
  · rw [h0, sortRowsBy]
    rw [hinv.2 v]
    simp
  · rw [rows_from_aggs, if_pos hn, h0, sortRowsBy]

/-- C7 (witness): with three aggregate entries whose exclusive totals are 7, 7
and 8, a limit of 2 keeps the first two rows of the sorted order. -/
theorem C7_witness :
    0 < 2
    ∧ rows_from_aggs 1 [(1, ⟨1, 5, 7, 5⟩), (2, ⟨1, 9, 7, 9⟩), (3, ⟨2, 4, 8, 4⟩)]
        (fun _ => ("", none)) (fun _ => none) SortKey.exclusive 2 =
      (rows_from_aggs 1 [(1, ⟨1, 5, 7, 5⟩), (2, ⟨1, 9, 7, 9⟩), (3, ⟨2, 4, 8, 4⟩)]
        (fun _ => ("", none)) (fun _ => none) SortKey.exclusive 0).take 2 :=
  ⟨by omega,
   (C7_report_order 1 [(1, ⟨1, 5, 7, 5⟩), (2, ⟨1, 9, 7, 9⟩), (3, ⟨2, 4, 8, 4⟩)]
      (fun _ => ("", none)) (fun _ => none) SortKey.exclusive 2).2.2 (by omega)⟩

theorem foldl_lastTs_isSome (recs : List TraceRecord) (st : TState) (h : recs ≠ []) :
    ((recs.foldl stepRecord st).lastTs).isSome = true := by
  induction recs using List.reverseRecOn with
  | nil => exact absurd rfl h
  | append_singleton rs x ih =>
    rw [List.foldl_append, List.foldl_cons, List.foldl_nil, stepRecord_lastTs]
    rfl

/-- C10: over every record sequence, the reconstruction records exactly one
call per Enter record: the per-address call counts of the produced aggregate
map sum to the number of Enter records, since every pushed frame is closed
exactly once — by the exit-drain loop or by the end-of-stream force-close —
and closings only pop pushed frames. -/
theorem C10_calls_count (recs : List TraceRecord) :
    callsSum (analyzeRecords recs) = countEnters recs := by
  have h := foldl_callsLen recs initState
  rw [analyzeRecords]
  rcases hst : recs.foldl stepRecord initState with ⟨s, a, l⟩
  rw [hst] at h
  dsimp only at h
  have hz : callsSum ([] : AggMap) = 0 := rfl
  rw [show initState = (⟨[], [], none⟩ : TState) from rfl] at h
  dsimp only at h
  rw [hz] at h
  simp only [List.length_nil] at h
  cases s with
  | nil =>
    show callsSum a = countEnters recs
    simp only [List.length_nil] at h
    omega
  | cons f fs =>
    cases l with
    | none =>
      exfalso
      by_cases hr : recs = []
      · subst hr
        simp only [List.foldl_nil] at hst
        exact List.noConfusion (congrArg TState.stack hst)
      · have hs := foldl_lastTs_isSome recs initState hr
        rw [hst] at hs
        simp at hs
    | some ts =>
      show callsSum (forceClose ts (f :: fs) a) = countEnters recs
      rw [forceClose_callsSum]
      simp only [List.length_cons] at h ⊢
      omega

/-! Equivalence of the two analyzers. -/

theorem prof_agg_add_eq (a : Option Agg) (c : Nat) (i e m : Int) (hm : 0 ≤ m) :
    Prof.agg_add a c i e m = agg_add a c i e m := by
  cases a with
  | none => simp [Prof.agg_add, agg_add, max_eq_right hm]
  | some x => rfl

theorem clamp_nonneg (x y : Int) : 0 ≤ (if x ≤ y then y - x else 0) := by
  split_ifs <;> omega

theorem prof_drain_eq (fn : Nat) (ts : Int) (stack : Stack) :
    ∀ (aggs : AggMap) (c : Int),
      Prof.drain fn ts (addChild c stack) aggs = drain fn ts (addChild c stack) aggs := by
  induction stack with
  | nil => intro aggs c; simp [Prof.drain, drain, addChild]
  | cons top rest ih =>
    intro aggs c
    obtain ⟨tf, tst, tch⟩ := top
    have hac : addChild c (⟨tf, tst, tch⟩ :: rest) = ⟨tf, tst, tch + c⟩ :: rest := rfl
    rw [hac]
    simp only [Prof.drain, drain]
    rw [prof_agg_add_eq _ _ _ _ _ (clamp_nonneg tst ts)]
    by_cases h : tf = fn
    · rw [if_pos h, if_pos h]
    · rw [if_neg h, if_neg h, ih]

theorem prof_forceClose_eq (ts : Int) (stack : Stack) :
    ∀ (aggs : AggMap) (c : Int),
      Prof.forceClose ts (addChild c stack) aggs = forceClose ts (addChild c stack) aggs := by
  induction stack with
  | nil => intro aggs c; simp [Prof.forceClose, forceClose, addChild]
  | cons top rest ih =>
    intro aggs c
    obtain ⟨tf, tst, tch⟩ := top
    have hac : addChild c (⟨tf, tst, tch⟩ :: rest) = ⟨tf, tst, tch + c⟩ :: rest := rfl
    rw [hac]
    simp only [Prof.forceClose, forceClose]
    rw [prof_agg_add_eq _ _ _ _ _ (clamp_nonneg tst ts)]
    rw [ih]

theorem prof_stepRecord_eq (st : TState) (r : TraceRecord) :
    Prof.stepRecord st r = stepRecord st r := by
  by_cases h : r.typ = 0
  · simp [Prof.stepRecord, stepRecord, h]
  · simp only [Prof.stepRecord, stepRecord, if_neg h]
    have hd := prof_drain_eq r.fn r.ts st.stack st.aggs 0
    rw [addChild_zero] at hd
    rw [hd]

theorem prof_foldl_eq (recs : List TraceRecord) :
    ∀ st : TState, recs.foldl Prof.stepRecord st = recs.foldl stepRecord st := by
  induction recs with
  | nil => intro st; rfl
  | cons r rs ih =>
    intro st
    rw [List.foldl_cons, List.foldl_cons, prof_stepRecord_eq, ih]

theorem parseRecord_drop (data : List Nat) (k off : Nat) :
    parseRecord (data.drop k) off = parseRecord data (k + off) := by
  have hd : ∀ m : Nat, (data.drop k).drop m = data.drop (k + m) := by
    intro m
    rw [List.drop_drop]
  have h8 : k + (off + 8) = k + off + 8 := by omega
  have h16 : k + (off + 16) = k + off + 16 := by omega
  simp only [parseRecord, sliceBytes, hd, h8, h16]

theorem prof_records_eq (data : List Nat) :
    ∀ (n off : Nat), n = (data.length - (HEADER_SZ + off)) / RECORD_SZ →
      Prof.readRecordsCount (data.drop HEADER_SZ) off n =
        readRecordsFrom data (HEADER_SZ + off) := by
  intro n
  induction n with
  | zero =>
    intro off h
    have hlt : ¬ (HEADER_SZ + off + RECORD_SZ ≤ data.length) := by
      simp only [RECORD_SZ, HEADER_SZ] at *
      omega
    rw [Prof.readRecordsCount, readRecordsFrom, if_neg hlt]
  | succ n ih =>
    intro off h
    have hle : HEADER_SZ + off + RECORD_SZ ≤ data.length := by
      simp only [RECORD_SZ, HEADER_SZ] at *
      omega
    rw [Prof.readRecordsCount, readRecordsFrom, if_pos hle]
    rw [parseRecord_drop]
    have hassoc : HEADER_SZ + off + RECORD_SZ = HEADER_SZ + (off + RECORD_SZ) := by omega
    rw [hassoc, ih (off + RECORD_SZ) (by simp only [RECORD_SZ, HEADER_SZ] at *; omega)]

/-- C9: on every input, the prof.py reconstruction started from an empty
shared dictionary and the prof2.py reconstruction produce exactly the same
per-address aggregate map (and they fail on exactly the same headers), so in
particular they agree on every header-valid record sequence. -/
theorem C9_analyzers_agree (data : List Nat) :
    Prof.analyze_thread_file data [] =
      (analyze_thread_file data).map (fun r => r.2.2) := by
  rw [Prof.analyze_thread_file, analyze_thread_file]
  rw [show Prof.load_header data = load_header data from rfl]
  cases h : load_header data with
  | error e => rfl
  | ok hd =>
    simp only [Except.map]
    have hrecs : Prof.readRecordsCount (data.drop HEADER_SZ) 0
        ((data.drop HEADER_SZ).length / RECORD_SZ) = readRecords data := by
      have h0 := prof_records_eq data ((data.length - (HEADER_SZ + 0)) / RECORD_SZ) 0 rfl
      rw [Nat.add_zero] at h0
      rw [List.length_drop, h0, readRecords]
    rw [hrecs, prof_foldl_eq]
    rw [analyzeRecords, show (⟨[], [], none⟩ : TState) = initState from rfl]
    rcases hst : (readRecords data).foldl stepRecord initState with ⟨s, a, l⟩
    cases s with
    | nil => rfl
    | cons f fs =>
      cases l with
      | none => rfl
      | some ts =>
        have hf := prof_forceClose_eq ts (f :: fs) a 0
        rw [addChild_zero] at hf
        show Except.ok (Prof.forceClose ts (f :: fs) a) =
          Except.ok (forceClose ts (f :: fs) a)
        rw [hf]
